import Mathlib

/-!
Verification development for the QA-MCP-Server repository.

The definitions below are a shallow embedding of the two Python sources:

- src/mcp-server/qa_mcp_server.py : tokenizer, knowledge normalization,
  keyword/semantic/hybrid search, and the rule-based intent resolver;
- src/mcp-client/qa_mcp_client.py : explicit-escalation check, category
  fallback, bounded conversation history, and the per-turn control flow.

Python strings are modelled as lists of characters (so every operation is
structurally recursive and evaluates inside the kernel), Python sets of
tokens as Finset, Python dicts (which preserve insertion order) as ordered
association lists, and the integers involved as Nat.  Python str.lower is
modelled as the character-wise ASCII lowering Char.toLower, and str.strip
as dropping whitespace on both ends; both agree with Python on the ASCII
texts this configuration-driven system processes.
-/

namespace QAMCP

/-- Model of a Python string: its list of characters. -/
abbrev Str := List Char

/-- Python str.lower, character-wise ASCII case folding. -/
def toLowerS (s : Str) : Str := s.map Char.toLower

/-- Python str.strip: remove leading and trailing whitespace. -/
def trimS (s : Str) : Str :=
  ((s.dropWhile Char.isWhitespace).reverse.dropWhile Char.isWhitespace).reverse

/-- Substring test: does the first list occur contiguously inside the
second?  Mirrors the Python expression needle in hay for strings (the
empty needle matches everything, including the empty string). -/
def infixOfB : Str → Str → Bool
  | ns, [] => ns.isEmpty
  | ns, c :: t => ns.isPrefixOf (c :: t) || infixOfB ns t

/-- Characters matched by the server regex TOKEN_PATTERN = [a-zA-Z]+. -/
def isAsciiAlpha (c : Char) : Bool :=
  (('a' ≤ c) && (c ≤ 'z')) || (('A' ≤ c) && (c ≤ 'Z'))

/-- Helper of alphaRuns: scan the characters, accumulating the current
(reversed) run of alphabetic characters. -/
def runsAux : Str → Str → List Str
  | [], acc => if acc.isEmpty then [] else [acc.reverse]
  | c :: cs, acc =>
    if isAsciiAlpha c then runsAux cs (c :: acc)
    else if acc.isEmpty then runsAux cs []
    else acc.reverse :: runsAux cs []

/-- TOKEN_PATTERN.findall: maximal runs of ASCII letters, in order. -/
def alphaRuns (s : Str) : List Str :=
  runsAux s []

/-- Server tokenize: lowercase the text, extract alphabetic runs, drop
configured stopwords, and collect the survivors into a set. -/
def tokenize (stopwords : List Str) (text : Str) : Finset Str :=
  ((alphaRuns (toLowerS text)).filter (fun t => !(stopwords.contains t))).toFinset

/-- One entry of NORMALIZED_KNOWLEDGE: the original corpus fields plus the
lowercased combined text and its token set. -/
structure NormEntry where
  id : Str
  title : Str
  content : Str
  category : Str
  text : Str
  tokens : Finset Str
deriving DecidableEq

/-- Normalization step performed on each corpus entry at server startup:
combine title and content with a space and tokenize the result. -/
def normalizeEntry (stopwords : List Str)
    (id title content category : Str) : NormEntry :=
  { id := id, title := title, content := content, category := category
  , text := toLowerS (title ++ [' '] ++ content)
  , tokens := tokenize stopwords (title ++ [' '] ++ content) }

/-- One entry of INTENT_INDEX: name, concatenated lowercased triggers and
severity (severity was defaulted to low upstream when absent). -/
structure IntentRule where
  name : Str
  triggers : List Str
  severity : Str
deriving DecidableEq

/-- Construction of an INTENT_INDEX row from an intents.yaml record:
primary and secondary triggers are concatenated and lowercased. -/
def buildIntentRule (name : Str) (primary secondary : List Str)
    (severity : Str) : IntentRule :=
  { name := name
  , triggers := (primary ++ secondary).map toLowerS
  , severity := severity }

/-- Server-side configuration derived from persona.yaml and intents.yaml:
stopwords, MIN_TOKEN_MATCH, SEARCH_MODE, SECURITY_TRIGGERS (kept verbatim,
not lowercased), INTENT_INDEX and FALLBACK_INTENT. -/
structure ServerCfg where
  stopwords : List Str
  minTokenMatch : Nat
  searchMode : Str
  securityTriggers : List Str
  intents : List IntentRule
  fallbackIntent : Str
deriving DecidableEq

/-- Token-overlap score used by the searches: size of the intersection of
the query token set and the entry token set. -/
def overlapScore (qt : Finset Str) (k : NormEntry) : Nat :=
  (qt ∩ k.tokens).card

/-- Server keyword_search: empty token set returns no matches, otherwise
keeps (in corpus order) every entry meeting MIN_TOKEN_MATCH overlap. -/
def keywordSearch (cfg : ServerCfg) (kb : List NormEntry) (query : Str) :
    List NormEntry :=
  let qt := tokenize cfg.stopwords query
  if qt = ∅ then []
  else kb.filter (fun k => decide (cfg.minTokenMatch ≤ overlapScore qt k))

/-- Scored corpus traversal of semantic_search: pair every positively
scoring entry with its score and its corpus index (the index records the
position that Python's stable sort preserves among equal scores). -/
def scoredList (qt : Finset Str) : Nat → List NormEntry →
    List (Nat × Nat × NormEntry)
  | _, [] => []
  | i, k :: rest =>
    if 0 < overlapScore qt k then
      (overlapScore qt k, i, k) :: scoredList qt (i + 1) rest
    else scoredList qt (i + 1) rest

/-- Ordering used to model scored.sort(reverse=True, key=score): score
strictly descending, with the corpus index breaking ties ascending.  On a
list whose indices are strictly increasing this is exactly the ordering a
stable descending sort by score produces. -/
def semOrder (a b : Nat × Nat × NormEntry) : Prop :=
  b.1 < a.1 ∨ (a.1 = b.1 ∧ a.2.1 ≤ b.2.1)

instance : DecidableRel semOrder := fun a b => by
  unfold semOrder; infer_instance

instance : IsTotal (Nat × Nat × NormEntry) semOrder := by
  constructor
  intro a b
  rcases Nat.lt_trichotomy a.1 b.1 with h | h | h
  · exact Or.inr (Or.inl h)
  · rcases Nat.le_total a.2.1 b.2.1 with h2 | h2
    · exact Or.inl (Or.inr ⟨h, h2⟩)
    · exact Or.inr (Or.inr ⟨h.symm, h2⟩)
  · exact Or.inl (Or.inl h)

instance : IsTrans (Nat × Nat × NormEntry) semOrder := by
  constructor
  intro a b c hab hbc
  rcases hab with h1 | ⟨h1, h1i⟩
  · rcases hbc with h2 | ⟨h2, _⟩
    · exact Or.inl (Nat.lt_trans h2 h1)
    · exact Or.inl (h2 ▸ h1)
  · rcases hbc with h2 | ⟨h2, h2i⟩
    · exact Or.inl (h1 ▸ h2)
    · exact Or.inr ⟨h1.trans h2, Nat.le_trans h1i h2i⟩

/-- Server semantic_search: score every entry, keep positive scores, sort
descending by score.  Python's list.sort is stable, so equal scores keep
corpus order; stability is made explicit here by tagging entries with
their corpus index and sorting by score descending then index ascending,
which yields the identical list. -/
def semanticSearch (cfg : ServerCfg) (kb : List NormEntry) (query : Str) :
    List NormEntry :=
  ((scoredList (tokenize cfg.stopwords query) 0 kb).insertionSort
    semOrder).map (fun x => x.2.2)

/-- Python dict assignment merged[k] = v: replace in place when the key is
present, otherwise append (dicts preserve insertion order). -/
def dictAssign (m : List (Str × NormEntry)) (k : Str) (v : NormEntry) :
    List (Str × NormEntry) :=
  if m.any (fun p => decide (p.1 = k)) then
    m.map (fun p => if p.1 = k then (k, v) else p)
  else m ++ [(k, v)]

/-- Python dict merged.setdefault(k, v): append only when the key is
absent. -/
def dictSetdefault (m : List (Str × NormEntry)) (k : Str)
    (v : NormEntry) : List (Str × NormEntry) :=
  if m.any (fun p => decide (p.1 = k)) then m else m ++ [(k, v)]

/-- Server hybrid_search: insert keyword hits into an insertion-ordered
dict keyed by entry id, then setdefault every semantic hit, and return the
dict values. -/
def hybridSearch (cfg : ServerCfg) (kb : List NormEntry) (query : Str) :
    List NormEntry :=
  let m1 := (keywordSearch cfg kb query).foldl
    (fun m k => dictAssign m k.id k) []
  let m2 := (semanticSearch cfg kb query).foldl
    (fun m k => dictSetdefault m k.id k) m1
  m2.map (fun p => p.2)

/-- Dispatch of the knowledge search resource on SEARCH_MODE. -/
def searchKnowledge (cfg : ServerCfg) (kb : List NormEntry)
    (query : Str) : List NormEntry :=
  if cfg.searchMode = ("semantic").toList then semanticSearch cfg kb query
  else if cfg.searchMode = ("hybrid").toList then hybridSearch cfg kb query
  else keywordSearch cfg kb query

/-- Result shape of the resolve_intent tool. -/
structure IntentResult where
  intent : Str
  severity : Str
  confidence : Str
deriving DecidableEq

/-- Server resolve_intent: lowercase the query; any security trigger that
is a substring forces the general/low/security_override result; otherwise
the first intent rule with a matching trigger wins with high confidence;
otherwise the configured fallback intent with fallback confidence. -/
def resolveIntent (cfg : ServerCfg) (query : Str) : IntentResult :=
  let ql := toLowerS query
  if cfg.securityTriggers.any (fun p => infixOfB p ql) then
    { intent := ("general").toList, severity := ("low").toList
    , confidence := ("security_override").toList }
  else
    match cfg.intents.find?
        (fun r => r.triggers.any (fun t => infixOfB t ql)) with
    | some r =>
      { intent := r.name, severity := r.severity
      , confidence := ("high").toList }
    | none =>
      { intent := cfg.fallbackIntent, severity := ("low").toList
      , confidence := ("fallback").toList }

/-- Client-side persona configuration: the escalation phrase list read
from escalation_phrases.user_request_indicators. -/
structure PersonaCfg where
  userRequestIndicators : List Str
deriving DecidableEq

/-- Client is_explicit_escalation: any configured indicator phrase that is
a substring of the lowercased query. -/
def isExplicitEscalation (persona : PersonaCfg) (query : Str) : Bool :=
  persona.userRequestIndicators.any (fun p => infixOfB p (toLowerS query))

/-- Client select_fallback_knowledge: return the first corpus entry whose
category equals the intent name, as a singleton list, else no entries. -/
def selectFallbackKnowledge : List NormEntry → Str → List NormEntry
  | [], _ => []
  | k :: rest, intentName =>
    if k.category = intentName then [k]
    else selectFallbackKnowledge rest intentName

/-- One element of the client conversation_history list. -/
structure ConvTurn where
  role : Str
  text : Str
deriving DecidableEq

/-- Client MAX_HISTORY_TURNS constant. -/
def MAX_HISTORY_TURNS : Nat := 4

/-- Python slice l[-n:]: the last n elements of the list (all of them when
the list is shorter). -/
def takeLast (n : Nat) (l : List α) : List α :=
  l.drop (l.length - n)

/-- Exit keywords of the client read loop. -/
def EXIT_KEYWORDS : List Str :=
  [("exit").toList, ("quit").toList, ("done").toList]

/-- Observable outcome of feeding one input line to the client loop body:
which actions were executed, whether the session ends on this turn,
whether the knowledge search and the intent resolution ran, the knowledge
handed to the prompt, and the conversation history afterwards. -/
structure TurnResult where
  actions : List Str
  terminated : Bool
  searched : Bool
  intentResolved : Bool
  knowledge : List NormEntry
  history : List ConvTurn
deriving DecidableEq

/-- One iteration of the client while-loop, for input line inputLine and
model reply reply: strip the input; blank input reprompts; an exit keyword
ends the session; an explicit escalation creates a ticket and ends the
session before any search or intent resolution runs; otherwise search the
knowledge base, resolve the intent, apply the category fallback when the
search came back empty, append the user turn to the history truncated to
the last MAX_HISTORY_TURNS entries, and append the stripped model reply. -/
def processInput (persona : PersonaCfg) (server : ServerCfg)
    (kb : List NormEntry) (history : List ConvTurn)
    (inputLine reply : Str) : TurnResult :=
  let q := trimS inputLine
  if q = [] then
    { actions := [], terminated := false, searched := false
    , intentResolved := false, knowledge := [], history := history }
  else if EXIT_KEYWORDS.contains (toLowerS q) then
    { actions := [], terminated := true, searched := false
    , intentResolved := false, knowledge := [], history := history }
  else if isExplicitEscalation persona q then
    { actions := [("create_ticket").toList], terminated := true
    , searched := false, intentResolved := false, knowledge := []
    , history := history }
  else
    let found := searchKnowledge server kb q
    let intent := resolveIntent server q
    let know := if found.isEmpty then selectFallbackKnowledge kb intent.intent
      else found
    let afterUser := takeLast MAX_HISTORY_TURNS
      (history ++ [⟨("user").toList, q⟩])
    { actions := [], terminated := false, searched := true
    , intentResolved := true, knowledge := know
    , history := afterUser ++ [⟨("model").toList, trimS reply⟩] }

/-- Client session: fold processInput over a list of (input, reply) pairs,
stopping as soon as a turn terminates the session; returns the final
conversation history. -/
def runTurns (persona : PersonaCfg) (server : ServerCfg)
    (kb : List NormEntry) : List ConvTurn → List (Str × Str) →
    List ConvTurn
  | h, [] => h
  | h, (q, r) :: rest =>
    let t := processInput persona server kb h q r
    if t.terminated then t.history
    else runTurns persona server kb t.history rest

section IntentTheorems

/-- A nonempty phrase is never a substring of the empty string. -/
theorem infixOfB_nil_right {p : Str} (hp : p ≠ []) : infixOfB p [] = false := by
  cases p with
  | nil => exact absurd rfl hp
  | cons a t => rfl

/-- C1 (amended): whenever some configured security trigger phrase is,
verbatim, a substring of the lowercased query, resolve_intent returns the
general intent with low severity and security_override confidence, for
every list of intent rules — the override check precedes every intent
rule, so this holds even when an intent trigger also matches. -/
theorem c1_security_override_wins (cfg : ServerCfg) (q : Str)
    (h : ∃ p ∈ cfg.securityTriggers, infixOfB p (toLowerS q) = true) :
    ∀ rules : List IntentRule,
      resolveIntent { cfg with intents := rules } q =
        ⟨("general").toList, ("low").toList, ("security_override").toList⟩ := by
  intro rules
  unfold resolveIntent
  have hc : cfg.securityTriggers.any (fun p => infixOfB p (toLowerS q)) = true := by
    rw [List.any_eq_true]
    exact h
  simp only [hc]
  rfl

/-- Witness for c1_security_override_wins at a concrete configuration in
which an intent trigger also matches the query. -/
theorem c1_security_override_wins_witness :
    resolveIntent
      ⟨[], 1, ("keyword").toList, [("drop table").toList],
        [buildIntentRule ("billing").toList [("invoice").toList] []
          ("medium").toList], ("general").toList⟩
      (("drop table invoice").toList) =
      ⟨("general").toList, ("low").toList, ("security_override").toList⟩ :=
  c1_security_override_wins
    ⟨[], 1, ("keyword").toList, [("drop table").toList], [],
      ("general").toList⟩
    (("drop table invoice").toList)
    ⟨("drop table").toList, by decide, by decide⟩
    [buildIntentRule ("billing").toList [("invoice").toList] []
      ("medium").toList]

/-- C1 counterexample: the security trigger Reset (configured with an
upper-case letter) is contained case-insensitively in the query
reset my account, yet resolve_intent does not fire the override — the
matching intent rule wins instead, because the code lowercases only the
query and compares the configured phrase verbatim. -/
theorem c1_counterexample :
    infixOfB (toLowerS (("Reset").toList))
        (toLowerS (("reset my account").toList)) = true ∧
    (resolveIntent
      ⟨[], 1, ("keyword").toList, [("Reset").toList],
        [buildIntentRule ("account").toList [("reset").toList] []
          ("high").toList], ("general").toList⟩
      (("reset my account").toList)).confidence = ("high").toList ∧
    ("high").toList ≠ ("security_override").toList := by decide

/-- C2: on any turn that reaches the explicit-escalation check (nonblank
input, not an exit keyword) and on which the check fires, the client
executes exactly the create_ticket action, terminates the session on that
same turn, runs no knowledge search and no intent resolution, and leaves
the history untouched. -/
theorem c2_explicit_escalation_terminates (persona : PersonaCfg)
    (server : ServerCfg) (kb : List NormEntry) (history : List ConvTurn)
    (inputLine reply : Str)
    (h1 : trimS inputLine ≠ [])
    (h2 : EXIT_KEYWORDS.contains (toLowerS (trimS inputLine)) = false)
    (h3 : isExplicitEscalation persona (trimS inputLine) = true) :
    processInput persona server kb history inputLine reply =
      { actions := [("create_ticket").toList], terminated := true
      , searched := false, intentResolved := false, knowledge := []
      , history := history } := by
  unfold processInput
  simp only [h1, h2, h3, if_neg, if_pos, Bool.false_eq_true, if_false]

/-- Witness for c2_explicit_escalation_terminates at a concrete persona
and query. -/
theorem c2_explicit_escalation_terminates_witness :
    processInput ⟨[("talk to a human").toList]⟩
      ⟨[], 1, ("keyword").toList, [], [], ("general").toList⟩ [] []
      (("I want to talk to a human").toList) (("ok").toList) =
      { actions := [("create_ticket").toList], terminated := true
      , searched := false, intentResolved := false, knowledge := []
      , history := [] } :=
  c2_explicit_escalation_terminates ⟨[("talk to a human").toList]⟩
    ⟨[], 1, ("keyword").toList, [], [], ("general").toList⟩ [] []
    (("I want to talk to a human").toList) (("ok").toList)
    (by decide) (by decide) (by decide)

/-- C8 (amended): provided every configured security trigger and every
built intent trigger is a nonempty phrase, the empty query matches nothing
and resolve_intent returns the configured fallback intent with low
severity and fallback confidence. -/
theorem c8_empty_query_fallback (cfg : ServerCfg)
    (hs : ∀ p ∈ cfg.securityTriggers, p ≠ [])
    (ht : ∀ r ∈ cfg.intents, ∀ t ∈ r.triggers, t ≠ []) :
    resolveIntent cfg [] =
      ⟨cfg.fallbackIntent, ("low").toList, ("fallback").toList⟩ := by
  unfold resolveIntent
  have h1 : cfg.securityTriggers.any (fun p => infixOfB p (toLowerS [])) = false := by
    rw [List.any_eq_false]
    intro p hp
    rw [show toLowerS [] = [] from rfl, infixOfB_nil_right (hs p hp)]
    simp
  have h2 : cfg.intents.find?
      (fun r => r.triggers.any (fun t => infixOfB t (toLowerS []))) = none := by
    rw [List.find?_eq_none]
    intro r hr
    simp only [Bool.not_eq_true]
    rw [List.any_eq_false]
    intro t htr
    rw [show toLowerS [] = [] from rfl, infixOfB_nil_right (ht r hr t htr)]
    simp
  simp only [h1, h2, Bool.false_eq_true, if_false]

/-- Witness for c8_empty_query_fallback at a concrete configuration with
nonempty triggers. -/
theorem c8_empty_query_fallback_witness :
    resolveIntent
      ⟨[], 1, ("keyword").toList, [("drop table").toList],
        [buildIntentRule ("billing").toList [("invoice").toList] []
          ("medium").toList], ("general").toList⟩ [] =
      ⟨("general").toList, ("low").toList, ("fallback").toList⟩ :=
  c8_empty_query_fallback
    ⟨[], 1, ("keyword").toList, [("drop table").toList],
      [buildIntentRule ("billing").toList [("invoice").toList] []
        ("medium").toList], ("general").toList⟩
    (by decide) (by decide)

/-- C8 counterexample: a configuration whose security trigger list holds
the empty phrase.  The empty phrase is a substring of the empty query, so
resolve_intent answers with the security override rather than with the
fallback confidence the claim promises for every configuration. -/
theorem c8_counterexample :
    (resolveIntent
      ⟨[], 1, ("keyword").toList, [[]], [], ("general").toList⟩
      []).confidence = ("security_override").toList ∧
    ("security_override").toList ≠ ("fallback").toList := by decide

end IntentTheorems

section ClientTheorems

/-- The Python slice l[-n:] keeps at most n elements. -/
theorem takeLast_length_le (n : Nat) (l : List α) :
    (takeLast n l).length ≤ n := by
  unfold takeLast
  rw [List.length_drop]
  omega

/-- The Python slice l[-n:] is a suffix of the list: the entries dropped
are exactly the oldest ones. -/
theorem takeLast_suffix (n : Nat) (l : List α) : takeLast n l <:+ l :=
  List.drop_suffix _ _

/-- Every branch of the client turn leaves the history at its previous
length or at most MAX_HISTORY_TURNS + 1 entries long. -/
theorem processInput_history_le (persona : PersonaCfg) (server : ServerCfg)
    (kb : List NormEntry) (history : List ConvTurn) (inputLine reply : Str) :
    (processInput persona server kb history inputLine reply).history.length ≤
      max history.length (MAX_HISTORY_TURNS + 1) := by
  simp only [processInput]
  split
  · exact Nat.le_max_left _ _
  · split
    · exact Nat.le_max_left _ _
    · split
      · exact Nat.le_max_left _ _
      · refine Nat.le_trans ?_ (Nat.le_max_right _ _)
        simp only [TurnResult.mk.injEq, List.length_append, List.length_cons,
          List.length_nil]
        have := takeLast_length_le MAX_HISTORY_TURNS
          (history ++ [⟨("user").toList, trimS inputLine⟩])
        omega

/-- A session that starts within the MAX_HISTORY_TURNS + 1 bound stays
within it after any sequence of turns. -/
theorem runTurns_history_le (persona : PersonaCfg) (server : ServerCfg)
    (kb : List NormEntry) (turns : List (Str × Str)) (history : List ConvTurn)
    (hh : history.length ≤ MAX_HISTORY_TURNS + 1) :
    (runTurns persona server kb history turns).length ≤
      MAX_HISTORY_TURNS + 1 := by
  induction turns generalizing history with
  | nil => exact hh
  | cons t rest ih =>
    obtain ⟨q, r⟩ := t
    have hb := processInput_history_le persona server kb history q r
    have hb2 : (processInput persona server kb history q r).history.length ≤
        MAX_HISTORY_TURNS + 1 := le_trans hb (by omega)
    simp only [runTurns]
    split
    · exact hb2
    · exact ih _ hb2

/-- C3 (amended): the conversation history of a session started empty
never exceeds MAX_HISTORY_TURNS + 1 entries (not MAX_HISTORY_TURNS: the
model reply is appended after the truncation, so the window can
momentarily hold one extra entry); on a turn that reaches the prompt the
history is the last MAX_HISTORY_TURNS entries of the previous history plus
the user turn — a suffix, so the oldest entries are evicted first — with
the model reply appended. -/
theorem c3_history_sliding_window (persona : PersonaCfg) (server : ServerCfg)
    (kb : List NormEntry) (turns : List (Str × Str))
    (history : List ConvTurn) (inputLine reply : Str) :
    (runTurns persona server kb [] turns).length ≤ MAX_HISTORY_TURNS + 1 ∧
    (processInput persona server kb history inputLine reply).history.length ≤
      max history.length (MAX_HISTORY_TURNS + 1) ∧
    ((processInput persona server kb history inputLine reply).searched = true →
      (processInput persona server kb history inputLine reply).history =
        takeLast MAX_HISTORY_TURNS
          (history ++ [⟨("user").toList, trimS inputLine⟩]) ++
          [⟨("model").toList, trimS reply⟩] ∧
      (takeLast MAX_HISTORY_TURNS
          (history ++ [⟨("user").toList, trimS inputLine⟩])).length ≤
        MAX_HISTORY_TURNS ∧
      takeLast MAX_HISTORY_TURNS
          (history ++ [⟨("user").toList, trimS inputLine⟩]) <:+
        (history ++ [⟨("user").toList, trimS inputLine⟩])) := by
  refine ⟨runTurns_history_le persona server kb turns [] (by simp),
    processInput_history_le persona server kb history inputLine reply, ?_⟩
  intro hs
  refine ⟨?_, takeLast_length_le _ _, takeLast_suffix _ _⟩
  simp only [processInput] at hs ⊢
  split at hs
  · simp at hs
  · split at hs
    · simp at hs
    · split at hs
      · simp at hs
      · rename_i hq hk he
        rw [if_neg hq, if_neg hk, if_neg he]

/-- Witness for c3_history_sliding_window on a concrete answered turn. -/
theorem c3_history_sliding_window_witness :
    (processInput ⟨[]⟩ ⟨[], 1, ("keyword").toList, [], [], ("general").toList⟩
      [] [] (("hello").toList) (("hi").toList)).history =
      takeLast MAX_HISTORY_TURNS
        (([] : List ConvTurn) ++ [⟨("user").toList, trimS (("hello").toList)⟩]) ++
        [⟨("model").toList, trimS (("hi").toList)⟩] :=
  ((c3_history_sliding_window ⟨[]⟩
    ⟨[], 1, ("keyword").toList, [], [], ("general").toList⟩ [] [] []
    (("hello").toList) (("hi").toList)).2.2 (by decide)).1

/-- C3 counterexample: after three ordinary turns of a fresh session the
history holds five entries, exceeding MAX_HISTORY_TURNS = 4 — the claim
that the history never exceeds max_history_turns entries, in particular
immediately after the model reply is appended, fails on the code, which
truncates only when inserting the user turn. -/
theorem c3_counterexample :
    (runTurns ⟨[]⟩ ⟨[], 1, ("keyword").toList, [], [], ("general").toList⟩
      [] []
      [((("a").toList), (("x").toList)), ((("b").toList), (("y").toList)),
        ((("c").toList), (("z").toList))]).length = 5 ∧
    MAX_HISTORY_TURNS = 4 := by decide

/-- C4 (amended): the client implements no implicit severity-based
escalation.  On every turn on which the explicit-escalation check does not
fire, no action at all is executed — whatever the query phrasing and
whatever severity the intent resolver would assign — and the session
terminates only when the input is an exit keyword. -/
theorem c4_no_implicit_escalation (persona : PersonaCfg) (server : ServerCfg)
    (kb : List NormEntry) (history : List ConvTurn) (inputLine reply : Str)
    (hesc : isExplicitEscalation persona (trimS inputLine) = false) :
    (processInput persona server kb history inputLine reply).actions = [] ∧
    (processInput persona server kb history inputLine reply).terminated =
      EXIT_KEYWORDS.contains (toLowerS (trimS inputLine)) := by
  simp only [processInput]
  split
  · rename_i hq
    refine ⟨rfl, ?_⟩
    rw [hq]
    exact (by decide : false = EXIT_KEYWORDS.contains (toLowerS []))
  · split
    · rename_i hk
      refine ⟨rfl, ?_⟩
      exact hk.symm
    · rename_i hk
      rw [hesc]
      simp only [Bool.false_eq_true, if_false]
      refine ⟨trivial, ?_⟩
      exact (eq_false_of_ne_true hk).symm

/-- Witness for c4_no_implicit_escalation on a concrete turn whose query
asks for a human and resolves to a high-severity intent. -/
theorem c4_no_implicit_escalation_witness :
    (processInput ⟨[("please escalate to agent").toList]⟩
      ⟨[], 1, ("keyword").toList, [],
        [buildIntentRule ("support").toList [("human").toList] []
          ("high").toList], ("general").toList⟩
      [] [] (("i want to speak to a human").toList) (("ok").toList)).actions
      = [] :=
  (c4_no_implicit_escalation ⟨[("please escalate to agent").toList]⟩
    ⟨[], 1, ("keyword").toList, [],
      [buildIntentRule ("support").toList [("human").toList] []
        ("high").toList], ("general").toList⟩
    [] [] (("i want to speak to a human").toList) (("ok").toList)
    (by decide)).1

/-- C4 counterexample: a turn whose query contains the ask-for-a-human
phrasing speak to a human, does not match the configured explicit
indicator, and resolves to a high-severity intent — yet the client
executes no action (in particular not create_ticket), refuting the claimed
implicit severity-based escalation; no such code path exists in the
client. -/
theorem c4_counterexample :
    infixOfB (("speak to a human").toList)
      (toLowerS (("i want to speak to a human").toList)) = true ∧
    isExplicitEscalation ⟨[("please escalate to agent").toList]⟩
      (("i want to speak to a human").toList) = false ∧
    (resolveIntent
      ⟨[], 1, ("keyword").toList, [],
        [buildIntentRule ("support").toList [("human").toList] []
          ("high").toList], ("general").toList⟩
      (("i want to speak to a human").toList)).severity = ("high").toList ∧
    (processInput ⟨[("please escalate to agent").toList]⟩
      ⟨[], 1, ("keyword").toList, [],
        [buildIntentRule ("support").toList [("human").toList] []
          ("high").toList], ("general").toList⟩
      [] [] (("i want to speak to a human").toList) (("ok").toList)).actions
      = [] ∧
    (processInput ⟨[("please escalate to agent").toList]⟩
      ⟨[], 1, ("keyword").toList, [],
        [buildIntentRule ("support").toList [("human").toList] []
          ("high").toList], ("general").toList⟩
      [] [] (("i want to speak to a human").toList)
      (("ok").toList)).terminated = false := by decide

/-- The category-fallback scan is the first corpus entry (if any) whose
category field equals the intent name. -/
theorem selectFallbackKnowledge_eq_find? (kb : List NormEntry) (name : Str) :
    selectFallbackKnowledge kb name =
      (kb.find? (fun k => decide (k.category = name))).toList := by
  induction kb with
  | nil => rfl
  | cons k rest ih =>
    unfold selectFallbackKnowledge
    by_cases h : k.category = name
    · simp [List.find?_cons, h]
    · simp [List.find?_cons, h, ih]

/-- C9: on a turn that performs the knowledge search, a non-empty search
result is used as is, and an empty search result is replaced by the
category fallback: the first corpus entry whose category equals the
resolved intent name, hence at most one entry. -/
theorem c9_category_fallback (persona : PersonaCfg) (server : ServerCfg)
    (kb : List NormEntry) (history : List ConvTurn) (inputLine reply : Str)
    (h1 : trimS inputLine ≠ [])
    (h2 : EXIT_KEYWORDS.contains (toLowerS (trimS inputLine)) = false)
    (h3 : isExplicitEscalation persona (trimS inputLine) = false) :
    (searchKnowledge server kb (trimS inputLine) ≠ [] →
      (processInput persona server kb history inputLine reply).knowledge =
        searchKnowledge server kb (trimS inputLine)) ∧
    (searchKnowledge server kb (trimS inputLine) = [] →
      (processInput persona server kb history inputLine reply).knowledge =
        (kb.find? (fun k => decide (k.category =
          (resolveIntent server (trimS inputLine)).intent))).toList ∧
      (processInput persona server kb history inputLine reply).knowledge.length
        ≤ 1) := by
  simp only [processInput, h1, h2, h3, Bool.false_eq_true, if_false,
    if_neg]
  constructor
  · intro hne
    simp [List.isEmpty_iff, hne]
  · intro hemp
    rw [hemp]
    simp only [List.isEmpty_nil, if_true, if_pos]
    rw [selectFallbackKnowledge_eq_find?]
    refine ⟨rfl, ?_⟩
    cases kb.find? (fun k => decide (k.category =
        (resolveIntent server (trimS inputLine)).intent)) with
    | none => simp
    | some k => simp

/-- Witness for c9_category_fallback: an empty keyword search falls back
to the single corpus entry of the resolved intent category. -/
theorem c9_category_fallback_witness :
    searchKnowledge
      ⟨[], 1, ("keyword").toList, [],
        [buildIntentRule ("billing").toList [("refund").toList] []
          ("medium").toList], ("general").toList⟩
      [normalizeEntry [] (("1").toList) (("Invoices").toList)
        (("invoice help").toList) (("billing").toList)]
      (trimS (("refund?!").toList)) = [] ∧
    (processInput ⟨[]⟩
      ⟨[], 1, ("keyword").toList, [],
        [buildIntentRule ("billing").toList [("refund").toList] []
          ("medium").toList], ("general").toList⟩
      [normalizeEntry [] (("1").toList) (("Invoices").toList)
        (("invoice help").toList) (("billing").toList)]
      [] (("refund?!").toList) (("ok").toList)).knowledge =
      [normalizeEntry [] (("1").toList) (("Invoices").toList)
        (("invoice help").toList) (("billing").toList)] := by
  constructor
  · decide
  · have h := (c9_category_fallback ⟨[]⟩
      ⟨[], 1, ("keyword").toList, [],
        [buildIntentRule ("billing").toList [("refund").toList] []
          ("medium").toList], ("general").toList⟩
      [normalizeEntry [] (("1").toList) (("Invoices").toList)
        (("invoice help").toList) (("billing").toList)]
      [] (("refund?!").toList) (("ok").toList)
      (by decide) (by decide) (by decide)).2 (by decide)
    rw [h.1]
    decide

end ClientTheorems

section SearchTheorems

/-- keyword_search never reorders: its result is a sublist of the corpus. -/
theorem keywordSearch_sublist (cfg : ServerCfg) (kb : List NormEntry)
    (q : Str) : List.Sublist (keywordSearch cfg kb q) kb := by
  simp only [keywordSearch]
  split
  · exact List.nil_sublist _
  · exact List.filter_sublist _

/-- The entry projection of the scored traversal is the corpus filtered to
positively scoring entries, in corpus order. -/
theorem scoredList_map_snd (qt : Finset Str) (kb : List NormEntry) :
    ∀ i, (scoredList qt i kb).map (fun x => x.2.2) =
      kb.filter (fun k => decide (0 < overlapScore qt k)) := by
  induction kb with
  | nil => intro i; rfl
  | cons k rest ih =>
    intro i
    unfold scoredList
    by_cases h : 0 < overlapScore qt k
    · rw [if_pos h, List.map_cons, ih (i + 1), List.filter_cons,
        decide_eq_true h, if_pos rfl]
    · rw [if_neg h, ih (i + 1), List.filter_cons, decide_eq_false h]
      simp

/-- Every element of the scored traversal carries the score of its entry
and an index at least the starting index. -/
theorem scoredList_key (qt : Finset Str) (kb : List NormEntry) :
    ∀ i, ∀ x ∈ scoredList qt i kb,
      x.1 = overlapScore qt x.2.2 ∧ i ≤ x.2.1 := by
  induction kb with
  | nil => intro i x hx; cases hx
  | cons k rest ih =>
    intro i x hx
    unfold scoredList at hx
    by_cases h : 0 < overlapScore qt k
    · rw [if_pos h] at hx
      rcases List.mem_cons.mp hx with hx | hx
      · subst hx
        exact ⟨rfl, Nat.le_refl _⟩
      · obtain ⟨h1, h2⟩ := ih (i + 1) x hx
        exact ⟨h1, Nat.le_of_succ_le h2⟩
    · rw [if_neg h] at hx
      obtain ⟨h1, h2⟩ := ih (i + 1) x hx
      exact ⟨h1, Nat.le_of_succ_le h2⟩

/-- The indices of the scored traversal are strictly increasing. -/
theorem scoredList_idx_pairwise (qt : Finset Str) (kb : List NormEntry) :
    ∀ i, (scoredList qt i kb).Pairwise (fun a b => a.2.1 < b.2.1) := by
  induction kb with
  | nil => intro i; exact List.Pairwise.nil
  | cons k rest ih =>
    intro i
    unfold scoredList
    by_cases h : 0 < overlapScore qt k
    · rw [if_pos h]
      refine List.Pairwise.cons ?_ (ih (i + 1))
      intro y hy
      exact Nat.lt_of_succ_le (scoredList_key qt rest (i + 1) y hy).2
    · rw [if_neg h]
      exact ih (i + 1)

/-- semantic_search returns, as a multiset, exactly the corpus entries
with a strictly positive overlap score. -/
theorem semanticSearch_perm_filter (cfg : ServerCfg) (kb : List NormEntry)
    (q : Str) :
    List.Perm (semanticSearch cfg kb q)
      (kb.filter (fun k =>
        decide (0 < overlapScore (tokenize cfg.stopwords q) k))) := by
  unfold semanticSearch
  have hp := (List.perm_insertionSort semOrder
    (scoredList (tokenize cfg.stopwords q) 0 kb)).map (fun x => x.2.2)
  rw [scoredList_map_snd (tokenize cfg.stopwords q) kb 0] at hp
  exact hp

/-- Projection of filtering the scored traversal at a fixed positive score
is the corpus filtered at that score, in corpus order. -/
theorem scoredList_filter_key (qt : Finset Str) (s : Nat) (hs : 0 < s)
    (kb : List NormEntry) :
    ∀ i, ((scoredList qt i kb).filter
        (fun x => decide (x.1 = s))).map (fun x => x.2.2) =
      kb.filter (fun k => decide (overlapScore qt k = s)) := by
  induction kb with
  | nil => intro i; rfl
  | cons k rest ih =>
    intro i
    unfold scoredList
    by_cases h : 0 < overlapScore qt k
    · rw [if_pos h, List.filter_cons]
      by_cases h2 : overlapScore qt k = s
      · have h2' : ((overlapScore qt k, i, k) : Nat × Nat × NormEntry).1 = s := h2
        rw [decide_eq_true h2', if_pos rfl, List.map_cons, ih (i + 1),
          List.filter_cons, decide_eq_true h2, if_pos rfl]
      · have h2' : ¬ (((overlapScore qt k, i, k) : Nat × Nat × NormEntry).1 = s) := h2
        rw [decide_eq_false h2']
        simp only [Bool.false_eq_true, if_false]
        rw [ih (i + 1), List.filter_cons, decide_eq_false h2]
        simp
    · rw [if_neg h]
      have h0 : overlapScore qt k = 0 := Nat.eq_zero_of_not_pos h
      have h2 : ¬ (overlapScore qt k = s) := by omega
      rw [ih (i + 1), List.filter_cons, decide_eq_false h2]
      simp

/-- C5: keyword_search of a query whose token set is empty (in particular
a query consisting only of stopword tokens) is empty; otherwise it is
exactly the corpus filtered to entries whose token-overlap with the query
reaches min_token_match, in corpus order (a sublist of the corpus, never
re-ranked). -/
theorem c5_keyword_search_spec (cfg : ServerCfg) (kb : List NormEntry)
    (q : Str) :
    (tokenize cfg.stopwords q = ∅ → keywordSearch cfg kb q = []) ∧
    (tokenize cfg.stopwords q ≠ ∅ →
      keywordSearch cfg kb q = kb.filter (fun k =>
        decide (cfg.minTokenMatch ≤
          overlapScore (tokenize cfg.stopwords q) k))) ∧
    List.Sublist (keywordSearch cfg kb q) kb ∧
    ((∀ t ∈ alphaRuns (toLowerS q), t ∈ cfg.stopwords) →
      keywordSearch cfg kb q = []) := by
  have hempty : (∀ t ∈ alphaRuns (toLowerS q), t ∈ cfg.stopwords) →
      tokenize cfg.stopwords q = ∅ := by
    intro h
    unfold tokenize
    have hf : (alphaRuns (toLowerS q)).filter
        (fun t => !(cfg.stopwords.contains t)) = [] := by
      rw [List.filter_eq_nil_iff]
      intro t ht
      have hc : cfg.stopwords.contains t = true := List.elem_iff.mpr (h t ht)
      simp [hc]
      exact h t ht
    rw [hf]
    rfl
  refine ⟨?_, ?_, keywordSearch_sublist cfg kb q, ?_⟩
  · intro h
    unfold keywordSearch
    rw [if_pos h]
  · intro h
    unfold keywordSearch
    rw [if_neg h]
  · intro h
    unfold keywordSearch
    rw [if_pos (hempty h)]

/-- Witness for c5_keyword_search_spec: a query made only of stopwords
yields no matches even against a matching corpus entry. -/
theorem c5_keyword_search_spec_witness :
    keywordSearch ⟨[("of").toList, ("the").toList], 1, ("keyword").toList,
        [], [], ("general").toList⟩
      [normalizeEntry [("of").toList, ("the").toList] (("1").toList)
        (("Of things").toList) (("the of").toList) (("misc").toList)]
      (("of the of").toList) = [] :=
  (c5_keyword_search_spec
    ⟨[("of").toList, ("the").toList], 1, ("keyword").toList, [], [],
      ("general").toList⟩
    [normalizeEntry [("of").toList, ("the").toList] (("1").toList)
      (("Of things").toList) (("the of").toList) (("misc").toList)]
    (("of the of").toList)).2.2.2 (by decide)

/-- C6: semantic_search returns exactly the corpus entries with strictly
positive overlap score (first conjunct, as a permutation of the filtered
corpus), in non-increasing score order (second conjunct), and entries of
any fixed score appear exactly as in the corpus, i.e. ties are broken by
corpus order (third conjunct). -/
theorem c6_semantic_search_spec (cfg : ServerCfg) (kb : List NormEntry)
    (q : Str) :
    List.Perm (semanticSearch cfg kb q)
      (kb.filter (fun k =>
        decide (0 < overlapScore (tokenize cfg.stopwords q) k))) ∧
    (semanticSearch cfg kb q).Pairwise (fun a b =>
      overlapScore (tokenize cfg.stopwords q) b ≤
        overlapScore (tokenize cfg.stopwords q) a) ∧
    (∀ s, 0 < s →
      (semanticSearch cfg kb q).filter (fun k =>
          decide (overlapScore (tokenize cfg.stopwords q) k = s)) =
        kb.filter (fun k =>
          decide (overlapScore (tokenize cfg.stopwords q) k = s))) := by
  refine ⟨semanticSearch_perm_filter cfg kb q, ?_, ?_⟩
  all_goals
    have hperm := List.perm_insertionSort semOrder
      (scoredList (tokenize cfg.stopwords q) 0 kb)
    have hsorted : (List.insertionSort semOrder
        (scoredList (tokenize cfg.stopwords q) 0 kb)).Pairwise semOrder :=
      List.sorted_insertionSort semOrder _
    have hkey : ∀ x ∈ List.insertionSort semOrder
        (scoredList (tokenize cfg.stopwords q) 0 kb),
        x.1 = overlapScore (tokenize cfg.stopwords q) x.2.2 := fun x hx =>
      (scoredList_key (tokenize cfg.stopwords q) kb 0 x
        (hperm.mem_iff.mp hx)).1
  · unfold semanticSearch
    rw [List.pairwise_map]
    refine hsorted.imp_of_mem ?_
    intro a b ha hb hr
    rw [← hkey a ha, ← hkey b hb]
    rcases hr with h | ⟨h, _⟩
    · exact Nat.le_of_lt h
    · exact Nat.le_of_eq h.symm
  · intro s hs
    unfold semanticSearch
    rw [List.filter_map]
    have hcongr : (List.insertionSort semOrder
        (scoredList (tokenize cfg.stopwords q) 0 kb)).filter
          ((fun k => decide (overlapScore (tokenize cfg.stopwords q) k = s)) ∘
            (fun x => x.2.2)) =
        (List.insertionSort semOrder
          (scoredList (tokenize cfg.stopwords q) 0 kb)).filter
          (fun x => decide (x.1 = s)) := by
      apply List.filter_congr
      intro x hx
      simp only [Function.comp_apply, hkey x hx]
    rw [hcongr]
    have hidxS : (scoredList (tokenize cfg.stopwords q) 0 kb).Pairwise
        (fun a b => a.2.1 < b.2.1) :=
      scoredList_idx_pairwise (tokenize cfg.stopwords q) kb 0
    have hSnodup : ((scoredList (tokenize cfg.stopwords q) 0 kb).map
        (fun x => x.2.1)).Nodup :=
      List.pairwise_map.mpr (hidxS.imp (fun h => Nat.ne_of_lt h))
    have hLnodup : ((List.insertionSort semOrder
        (scoredList (tokenize cfg.stopwords q) 0 kb)).map
        (fun x => x.2.1)).Nodup :=
      ((hperm.map (fun x => x.2.1)).symm).nodup hSnodup
    have hLne : (List.insertionSort semOrder
        (scoredList (tokenize cfg.stopwords q) 0 kb)).Pairwise
        (fun a b => a.2.1 ≠ b.2.1) := List.pairwise_map.mp hLnodup
    have hSp : ((scoredList (tokenize cfg.stopwords q) 0 kb).filter
        (fun x => decide (x.1 = s))).Pairwise (fun a b => a.2.1 < b.2.1) :=
      List.Pairwise.sublist (List.filter_sublist _) hidxS
    have hLp : ((List.insertionSort semOrder
        (scoredList (tokenize cfg.stopwords q) 0 kb)).filter
        (fun x => decide (x.1 = s))).Pairwise (fun a b => a.2.1 < b.2.1) := by
      have hcomb := hsorted.and hLne
      have hsub : ((List.insertionSort semOrder
          (scoredList (tokenize cfg.stopwords q) 0 kb)).filter
          (fun x => decide (x.1 = s))).Pairwise
          (fun a b => semOrder a b ∧ a.2.1 ≠ b.2.1) :=
        List.Pairwise.sublist (List.filter_sublist _) hcomb
      refine hsub.imp_of_mem ?_
      intro a b ha hb hR
      obtain ⟨hr, hne⟩ := hR
      have ha1 : a.1 = s := of_decide_eq_true (List.mem_filter.mp ha).2
      have hb1 : b.1 = s := of_decide_eq_true (List.mem_filter.mp hb).2
      rcases hr with h | ⟨_, hle⟩
      · rw [ha1, hb1] at h
        exact absurd h (Nat.lt_irrefl s)
      · exact Nat.lt_of_le_of_ne hle hne
    have hpf := hperm.filter (fun x => decide (x.1 = s))
    letI : IsAntisymm (Nat × Nat × NormEntry) (fun a b => a.2.1 < b.2.1) :=
      ⟨fun _ _ h h2 => absurd h2 (Nat.lt_asymm h)⟩
    have hLS : (List.insertionSort semOrder
        (scoredList (tokenize cfg.stopwords q) 0 kb)).filter
          (fun x => decide (x.1 = s)) =
        (scoredList (tokenize cfg.stopwords q) 0 kb).filter
          (fun x => decide (x.1 = s)) :=
      List.eq_of_perm_of_sorted hpf hLp hSp
    rw [hLS, scoredList_filter_key (tokenize cfg.stopwords q) s hs kb 0]

/-- Witness for c6_semantic_search_spec: the tie-break conjunct evaluated
at score one on a concrete corpus with two equally scoring entries. -/
theorem c6_semantic_search_spec_witness :
    (semanticSearch ⟨[], 1, ("semantic").toList, [], [], ("general").toList⟩
      [normalizeEntry [] (("1").toList) (("reset").toList)
        (("password steps").toList) (("account").toList),
       normalizeEntry [] (("2").toList) (("reset").toList)
        (("other steps").toList) (("account").toList)]
      (("reset").toList)).filter (fun k =>
        decide (overlapScore (tokenize [] (("reset").toList)) k = 1)) =
    ([normalizeEntry [] (("1").toList) (("reset").toList)
        (("password steps").toList) (("account").toList),
      normalizeEntry [] (("2").toList) (("reset").toList)
        (("other steps").toList) (("account").toList)]).filter (fun k =>
        decide (overlapScore (tokenize [] (("reset").toList)) k = 1)) :=
  (c6_semantic_search_spec
    ⟨[], 1, ("semantic").toList, [], [], ("general").toList⟩
    [normalizeEntry [] (("1").toList) (("reset").toList)
      (("password steps").toList) (("account").toList),
     normalizeEntry [] (("2").toList) (("reset").toList)
      (("other steps").toList) (("account").toList)]
    (("reset").toList)).2.2 1 (by decide)

/-- Folding Python dict assignments over entries with pairwise distinct,
fresh keys appends the key-value pairs in order. -/
theorem foldl_dictAssign_fresh : ∀ (ks : List NormEntry)
    (m : List (Str × NormEntry)),
    (∀ k ∈ ks, m.any (fun p => decide (p.1 = k.id)) = false) →
    ((ks.map (fun k => k.id)).Nodup) →
    ks.foldl (fun m k => dictAssign m k.id k) m =
      m ++ ks.map (fun k => (k.id, k)) := by
  intro ks
  induction ks with
  | nil => intro m _ _; simp
  | cons k rest ih =>
    intro m hfresh hnodup
    rw [List.foldl_cons]
    have hk : m.any (fun p => decide (p.1 = k.id)) = false :=
      hfresh k (List.mem_cons_self k rest)
    have hstep : dictAssign m k.id k = m ++ [(k.id, k)] := by
      unfold dictAssign
      rw [hk]
      simp
    rw [hstep, ih (m ++ [(k.id, k)]) ?_ (List.nodup_cons.mp hnodup).2]
    · simp
    · intro e he
      rw [List.any_append]
      rw [hfresh e (List.mem_cons_of_mem _ he)]
      have hne : ¬ (k.id = e.id) := by
        intro hcontra
        apply (List.nodup_cons.mp hnodup).1
        show k.id ∈ List.map (fun x => x.id) rest
        rw [hcontra]
        exact List.mem_map_of_mem (fun x => x.id) he
      simp [hne]

/-- Folding Python dict setdefault over entries with pairwise distinct
keys appends exactly the entries whose key is absent from the initial
dict, in order. -/
theorem foldl_dictSetdefault : ∀ (ss : List NormEntry)
    (m : List (Str × NormEntry)),
    ((ss.map (fun k => k.id)).Nodup) →
    ss.foldl (fun m k => dictSetdefault m k.id k) m =
      m ++ (ss.filter (fun e =>
        !(m.any (fun p => decide (p.1 = e.id))))).map (fun k => (k.id, k)) := by
  intro ss
  induction ss with
  | nil => intro m _; simp
  | cons e rest ih =>
    intro m hnodup
    rw [List.foldl_cons, List.filter_cons]
    by_cases hm : m.any (fun p => decide (p.1 = e.id)) = true
    · have hstep : dictSetdefault m e.id e = m := by
        unfold dictSetdefault
        rw [hm]
        simp
      rw [hstep, ih m (List.nodup_cons.mp hnodup).2, hm]
      simp
    · have hm' : m.any (fun p => decide (p.1 = e.id)) = false :=
        eq_false_of_ne_true hm
      have hstep : dictSetdefault m e.id e = m ++ [(e.id, e)] := by
        unfold dictSetdefault
        rw [hm']
        simp
      rw [hstep, ih (m ++ [(e.id, e)]) (List.nodup_cons.mp hnodup).2, hm']
      have hfc : rest.filter (fun x =>
          !((m ++ [(e.id, e)]).any (fun p => decide (p.1 = x.id)))) =
          rest.filter (fun x =>
            !(m.any (fun p => decide (p.1 = x.id)))) := by
        apply List.filter_congr
        intro x hx
        have hne : ¬ (e.id = x.id) := by
          intro hcontra
          apply (List.nodup_cons.mp hnodup).1
          show e.id ∈ List.map (fun y => y.id) rest
          rw [hcontra]
          exact List.mem_map_of_mem (fun y => y.id) hx
        rw [List.any_append]
        simp [hne]
      rw [hfc]
      simp

/-- Under unique corpus ids, the keyword hits carry pairwise distinct
ids. -/
theorem keywordSearch_ids_nodup (cfg : ServerCfg) (kb : List NormEntry)
    (q : Str) (hids : (kb.map (fun k => k.id)).Nodup) :
    ((keywordSearch cfg kb q).map (fun k => k.id)).Nodup :=
  List.Pairwise.sublist ((keywordSearch_sublist cfg kb q).map (fun k => k.id))
    hids

/-- Under unique corpus ids, the semantic hits carry pairwise distinct
ids. -/
theorem semanticSearch_ids_nodup (cfg : ServerCfg) (kb : List NormEntry)
    (q : Str) (hids : (kb.map (fun k => k.id)).Nodup) :
    ((semanticSearch cfg kb q).map (fun k => k.id)).Nodup := by
  have h2 : ((kb.filter (fun k =>
      decide (0 < overlapScore (tokenize cfg.stopwords q) k))).map
      (fun k => k.id)).Nodup :=
    List.Pairwise.sublist ((List.filter_sublist kb).map (fun k => k.id)) hids
  exact (((semanticSearch_perm_filter cfg kb q).map
    (fun k => k.id)).symm).nodup h2

/-- Any-over-map, for maps that change the element type. -/
theorem listAnyMap (f : α → β) (l : List α) (p : β → Bool) :
    (l.map f).any p = l.any (fun a => p (f a)) := by
  induction l with
  | nil => rfl
  | cons a t ih => simp [List.any_cons, ih]

/-- Under unique corpus ids, hybrid_search is the keyword hits followed by
the semantic hits whose id is not among the keyword ids. -/
theorem hybridSearch_decomp (cfg : ServerCfg) (kb : List NormEntry)
    (q : Str) (hids : (kb.map (fun k => k.id)).Nodup) :
    hybridSearch cfg kb q = keywordSearch cfg kb q ++
      (semanticSearch cfg kb q).filter (fun e =>
        !((keywordSearch cfg kb q).any (fun k => decide (k.id = e.id)))) := by
  simp only [hybridSearch]
  have hm1 : (keywordSearch cfg kb q).foldl
      (fun m k => dictAssign m k.id k) [] =
      (keywordSearch cfg kb q).map (fun k => (k.id, k)) := by
    have := foldl_dictAssign_fresh (keywordSearch cfg kb q) []
      (fun k _ => rfl) (keywordSearch_ids_nodup cfg kb q hids)
    simpa using this
  rw [hm1, foldl_dictSetdefault (semanticSearch cfg kb q) _
    (semanticSearch_ids_nodup cfg kb q hids)]
  rw [List.map_append, List.map_map, List.map_map]
  have hcompid : ((fun p : Str × NormEntry => p.2) ∘
      fun k : NormEntry => (k.id, k)) = fun k => k := rfl
  rw [hcompid, List.map_id', List.map_id']
  have hpred : ∀ e : NormEntry,
      (!((List.map (fun k => (k.id, k)) (keywordSearch cfg kb q)).any
        (fun p => decide (p.1 = e.id)))) =
      (!((keywordSearch cfg kb q).any (fun k => decide (k.id = e.id)))) := by
    intro e
    rw [listAnyMap]
  rw [List.filter_congr (fun x _ => hpred x)]

/-- C7: under unique corpus ids (the data model declares ids unique),
hybrid_search is exactly the keyword hits, in keyword order, followed by
the semantic-only hits (those whose id is not a keyword-hit id) in
semantic score order; every keyword hit appears, and each id occurs at
most once in the output. -/
theorem c7_hybrid_search_spec (cfg : ServerCfg) (kb : List NormEntry)
    (q : Str) (hids : (kb.map (fun k => k.id)).Nodup) :
    hybridSearch cfg kb q = keywordSearch cfg kb q ++
      (semanticSearch cfg kb q).filter (fun e =>
        !((keywordSearch cfg kb q).any (fun k => decide (k.id = e.id)))) ∧
    (∀ e ∈ keywordSearch cfg kb q, e ∈ hybridSearch cfg kb q) ∧
    ((hybridSearch cfg kb q).map (fun k => k.id)).Nodup := by
  have hdec := hybridSearch_decomp cfg kb q hids
  refine ⟨hdec, ?_, ?_⟩
  · intro e he
    rw [hdec]
    exact List.mem_append_left _ he
  · rw [hdec, List.map_append, List.nodup_append]
    refine ⟨keywordSearch_ids_nodup cfg kb q hids, ?_, ?_⟩
    · exact List.Pairwise.sublist
        ((List.filter_sublist (l := semanticSearch cfg kb q)
          (p := fun e => !((keywordSearch cfg kb q).any
            (fun k => decide (k.id = e.id))))).map (fun k => k.id))
        (semanticSearch_ids_nodup cfg kb q hids)
    · intro x hx1 hx2
      obtain ⟨k, hk, hkx⟩ := List.mem_map.mp hx1
      obtain ⟨e, he, hex⟩ := List.mem_map.mp hx2
      have hef := List.mem_filter.mp he
      have hfalse : (keywordSearch cfg kb q).any
          (fun k2 => decide (k2.id = e.id)) = false := by
        simpa using hef.2
      exact (List.any_eq_false.mp hfalse k hk)
        (decide_eq_true (by rw [hkx, hex]))

/-- Witness for c7_hybrid_search_spec: decomposition at a concrete corpus
where one entry is a keyword hit and another only a semantic hit. -/
theorem c7_hybrid_search_spec_witness :
    hybridSearch ⟨[], 2, ("hybrid").toList, [], [], ("general").toList⟩
      [normalizeEntry [] (("1").toList) (("Reset").toList)
        (("password reset steps").toList) (("account").toList),
       normalizeEntry [] (("2").toList) (("Billing").toList)
        (("password invoice").toList) (("billing").toList)]
      (("reset password").toList) =
    keywordSearch ⟨[], 2, ("hybrid").toList, [], [], ("general").toList⟩
      [normalizeEntry [] (("1").toList) (("Reset").toList)
        (("password reset steps").toList) (("account").toList),
       normalizeEntry [] (("2").toList) (("Billing").toList)
        (("password invoice").toList) (("billing").toList)]
      (("reset password").toList) ++
    (semanticSearch ⟨[], 2, ("hybrid").toList, [], [], ("general").toList⟩
      [normalizeEntry [] (("1").toList) (("Reset").toList)
        (("password reset steps").toList) (("account").toList),
       normalizeEntry [] (("2").toList) (("Billing").toList)
        (("password invoice").toList) (("billing").toList)]
      (("reset password").toList)).filter (fun e =>
        !((keywordSearch ⟨[], 2, ("hybrid").toList, [], [],
            ("general").toList⟩
          [normalizeEntry [] (("1").toList) (("Reset").toList)
            (("password reset steps").toList) (("account").toList),
           normalizeEntry [] (("2").toList) (("Billing").toList)
            (("password invoice").toList) (("billing").toList)]
          (("reset password").toList)).any
            (fun k => decide (k.id = e.id)))) :=
  (c7_hybrid_search_spec ⟨[], 2, ("hybrid").toList, [], [], ("general").toList⟩
    [normalizeEntry [] (("1").toList) (("Reset").toList)
      (("password reset steps").toList) (("account").toList),
     normalizeEntry [] (("2").toList) (("Billing").toList)
      (("password invoice").toList) (("billing").toList)]
    (("reset password").toList) (by decide)).1

/-- C10: whenever min_token_match is at least one and corpus ids are
unique, every keyword hit is also a semantic hit, and hybrid_search
returns exactly the same set of entries as semantic_search. -/
theorem c10_hybrid_equals_semantic_set (cfg : ServerCfg)
    (kb : List NormEntry) (q : Str) (hmin : 1 ≤ cfg.minTokenMatch)
    (hids : (kb.map (fun k => k.id)).Nodup) :
    (∀ e ∈ keywordSearch cfg kb q, e ∈ semanticSearch cfg kb q) ∧
    (∀ e, e ∈ hybridSearch cfg kb q ↔ e ∈ semanticSearch cfg kb q) := by
  have hsub : ∀ e ∈ keywordSearch cfg kb q, e ∈ semanticSearch cfg kb q := by
    intro e he
    simp only [keywordSearch] at he
    split at he
    · cases he
    · have hm := List.mem_filter.mp he
      have hscore : cfg.minTokenMatch ≤
          overlapScore (tokenize cfg.stopwords q) e := of_decide_eq_true hm.2
      refine ((semanticSearch_perm_filter cfg kb q).mem_iff).mpr ?_
      exact List.mem_filter.mpr ⟨hm.1, decide_eq_true (by omega)⟩
  refine ⟨hsub, ?_⟩
  intro e
  rw [hybridSearch_decomp cfg kb q hids]
  constructor
  · intro he
    rcases List.mem_append.mp he with h | h
    · exact hsub e h
    · exact (List.mem_filter.mp h).1
  · intro he
    by_cases hany : (keywordSearch cfg kb q).any
        (fun k => decide (k.id = e.id)) = true
    · obtain ⟨k, hk, hkd⟩ := List.any_eq_true.mp hany
      have hkkb : k ∈ kb := (keywordSearch_sublist cfg kb q).subset hk
      have hekb : e ∈ kb := (List.mem_filter.mp
        (((semanticSearch_perm_filter cfg kb q).mem_iff).mp he)).1
      have hke : k = e :=
        List.inj_on_of_nodup_map hids hkkb hekb (of_decide_eq_true hkd)
      exact List.mem_append_left _ (hke ▸ hk)
    · have hany' : (keywordSearch cfg kb q).any
          (fun k => decide (k.id = e.id)) = false := eq_false_of_ne_true hany
      refine List.mem_append_right _ (List.mem_filter.mpr ⟨he, ?_⟩)
      simp [hany']

/-- Witness for c10_hybrid_equals_semantic_set: a semantic-only entry is
in the hybrid result of a concrete query. -/
theorem c10_hybrid_equals_semantic_set_witness :
    normalizeEntry [] (("2").toList) (("Billing").toList)
      (("password invoice").toList) (("billing").toList) ∈
    hybridSearch ⟨[], 2, ("hybrid").toList, [], [], ("general").toList⟩
      [normalizeEntry [] (("1").toList) (("Reset").toList)
        (("password reset steps").toList) (("account").toList),
       normalizeEntry [] (("2").toList) (("Billing").toList)
        (("password invoice").toList) (("billing").toList)]
      (("reset password").toList) :=
  ((c10_hybrid_equals_semantic_set
    ⟨[], 2, ("hybrid").toList, [], [], ("general").toList⟩
    [normalizeEntry [] (("1").toList) (("Reset").toList)
      (("password reset steps").toList) (("account").toList),
     normalizeEntry [] (("2").toList) (("Billing").toList)
      (("password invoice").toList) (("billing").toList)]
    (("reset password").toList) (by decide) (by decide)).2 _).mpr (by decide)

end SearchTheorems

end QAMCP
